import Mathlib

/-!
Verification of the monhang component-synchronization tool.

This file shallowly embeds the Go source of github.com/cangussu/monhang:
the Result Store (`SyncResults` in the `commands` package), the source
resolver (`parseSourceURL`, present in both the `components` and the
`commands` packages, on top of a model of Go's `net/url.Parse`), the
sync engine (`componentExists`, `cloneComponent`, `updateComponent`,
`syncComponentBackground`), the dependency-graph builder
(`Project.ProcessDeps` / `Project.Sort` in `internal/monhang`), and the
exec-mode summary of `runExec` in `internal/monhang/exec.go`.

Stateful Go code is modelled by explicit state passing: the mutex-guarded
result slice becomes a `List SyncResult` threaded through the operations
(each mutating method of the Go code holds the lock for its whole body, so
one method call is one atomic step on the list); the filesystem and the
git subprocess runner become explicit oracle functions.  Go `error` values
are modelled as `Option String` holding the error text.
-/

namespace Monhang

/-! ## Result Store (`commands` package, SyncResults)

Go source: `SyncResult` / `SyncResults` with methods `Add`,
`SetInProgress`, `UpdateResult`, `GetResults`.  The backing slice is
modelled as a `List SyncResult` in append order; each method is a pure
function from the old list to the new one. -/

/-- Sync action constants from the Go source. -/
def SyncActionCloned : String := "cloned"

/-- `SyncActionUpdated = "updated"`. -/
def SyncActionUpdated : String := "updated"

/-- `SyncActionFailed = "failed"`. -/
def SyncActionFailed : String := "failed"

/-- Go struct `SyncResult` (field order as in the source: Error, Name,
Action, Version, InProgress).  `error` is `some msg` when the Go field
holds a non-nil error with text `msg`. -/
structure SyncResult where
  error : Option String
  name : String
  action : String
  version : String
  inProgress : Bool
deriving DecidableEq, Repr

/-- Go `(sr *SyncResults) Add`: appends a terminal record. -/
def addResult (rs : List SyncResult) (name action version : String)
    (err : Option String) : List SyncResult :=
  rs ++ [{ error := err, name := name, action := action, version := version,
           inProgress := false }]

/-- Go `(sr *SyncResults) SetInProgress`: appends a record with only the
name set and `InProgress: true` (the other fields are Go zero values). -/
def setInProgress (rs : List SyncResult) (name : String) : List SyncResult :=
  rs ++ [{ error := none, name := name, action := "", version := "",
           inProgress := true }]

/-- Go `(sr *SyncResults) UpdateResult`: scans the slice from index 0 and
rewrites the first record whose `Name` matches and which is in progress,
then returns; if no record matches, the slice is left unchanged. -/
def updateResult (rs : List SyncResult) (name action version : String)
    (err : Option String) : List SyncResult :=
  match rs with
  | [] => []
  | r :: rest =>
    if r.name = name ∧ r.inProgress = true then
      { r with action := action, version := version, error := err,
               inProgress := false } :: rest
    else
      r :: updateResult rest name action version err

/-! Helper lemmas about `updateResult`. -/

/-- If no record of `rs` is an in-progress record named `name`,
`updateResult` leaves the whole list unchanged. -/
theorem updateResult_no_match (rs : List SyncResult) (name action version : String)
    (err : Option String)
    (h : ∀ r ∈ rs, ¬(r.name = name ∧ r.inProgress = true)) :
    updateResult rs name action version err = rs := by
  induction rs with
  | nil => rfl
  | cons r rest ih =>
    have hr : ¬(r.name = name ∧ r.inProgress = true) := h r (List.mem_cons_self r rest)
    have hrest : ∀ x ∈ rest, ¬(x.name = name ∧ x.inProgress = true) := by
      intro x hx
      exact h x (List.mem_cons_of_mem r hx)
    simp only [updateResult, if_neg hr]
    rw [ih hrest]

/-- `updateResult` rewrites exactly the first matching record: if every
record of `pre` fails the match and `r` matches, the records of `pre` and
of `post` are returned unchanged and `r` becomes terminal. -/
theorem updateResult_first_match (pre post : List SyncResult) (r : SyncResult)
    (name action version : String) (err : Option String)
    (hpre : ∀ x ∈ pre, ¬(x.name = name ∧ x.inProgress = true))
    (hname : r.name = name) (hprog : r.inProgress = true) :
    updateResult (pre ++ r :: post) name action version err =
      pre ++ { r with action := action, version := version, error := err,
                      inProgress := false } :: post := by
  induction pre with
  | nil =>
    simp only [List.nil_append, updateResult, if_pos (And.intro hname hprog)]
  | cons x xs ih =>
    have hx : ¬(x.name = name ∧ x.inProgress = true) := hpre x (List.mem_cons_self x xs)
    have hxs : ∀ y ∈ xs, ¬(y.name = name ∧ y.inProgress = true) := by
      intro y hy
      exact hpre y (List.mem_cons_of_mem x hy)
    simp only [List.cons_append, updateResult, if_neg hx, List.append_eq]
    rw [ih hxs]

/-! ## Model of Go `net/url.Parse` (the subset exercised by `parseSourceURL`)

Both copies of `parseSourceURL` call `url.Parse` and then use `u.Query()`,
`u.RawQuery = ""` and `u.String()`.  The model below follows the control
flow of Go's `net/url` (`Parse` → `parse` with `viaRequest = false`,
`getScheme`, `parseAuthority`, `parseHost`, `setPath`).  Simplifications,
each noted in place: strings are sequences of `Char` rather than bytes
(identical for ASCII input); percent escapes are validated but not
decoded, so `Path` stores the raw (still-escaped) text — for any input
whose escaping is valid this coincides with what `u.String()` re-emits
via `EscapedPath`, because `RawPath`/`EscapedPath` round-trip the original
text; IPv6 zone identifiers and userinfo unescaping are not modelled
beyond their validity checks.  One known narrowing: Go's `unescape` with
`encodeHost` additionally rejects hosts containing characters that are
invalid in a host name, which `parseHost` below does not check — the
model therefore accepts a few authority strings Go rejects; no input used
by a theorem in this file has such a host. -/

/-- First-occurrence split: Go `strings.Cut(s, string(c))` restricted to a
one-character separator.  Returns `none` when `c` does not occur. -/
def cutAtChar : List Char → Char → Option (List Char × List Char)
  | [], _ => none
  | x :: xs, c =>
    if x = c then some ([], xs)
    else (cutAtChar xs c).map (fun p => (x :: p.1, p.2))

/-- Split at the LAST occurrence of `c` (Go `strings.LastIndex`). -/
def lastCutAtChar (s : List Char) (c : Char) : Option (List Char × List Char) :=
  (cutAtChar s.reverse c).map (fun p => (p.2.reverse, p.1.reverse))

/-- Membership test for a character. -/
def containsChar (s : List Char) (c : Char) : Bool :=
  s.any (· = c)

/-- ASCII letter (Go `'a' <= c && c <= 'z' || 'A' <= c && c <= 'Z'`). -/
def isAsciiLetter (c : Char) : Bool :=
  (('a' ≤ c) && (c ≤ 'z')) || (('A' ≤ c) && (c ≤ 'Z'))

/-- ASCII digit. -/
def isAsciiDigit (c : Char) : Bool :=
  ('0' ≤ c) && (c ≤ '9')

/-- Hexadecimal digit (Go `ishex`). -/
def isHexDigit (c : Char) : Bool :=
  isAsciiDigit c || (('a' ≤ c) && (c ≤ 'f')) || (('A' ≤ c) && (c ≤ 'F'))

/-- ASCII lower-casing of one character (Go `strings.ToLower` on the
scheme, which is all-ASCII by construction of `getScheme`). -/
def asciiLowerChar (c : Char) : Char :=
  if ('A' ≤ c) && (c ≤ 'Z') then Char.ofNat (c.toNat + 32) else c

/-- Go `stringContainsCTLByte`: any byte below 0x20 or equal to 0x7f. -/
def containsCTL (s : List Char) : Bool :=
  s.any (fun c => c.toNat < 0x20 || c.toNat == 0x7f)

/-- Percent-escape validity: every `%` is followed by two hex digits
(the error condition of Go `unescape`; the decoded bytes themselves are
not needed by the embedded code paths). -/
def validPercent : List Char → Bool
  | [] => true
  | c :: rest =>
    if c = '%' then
      match rest with
      | a :: b :: rest2 => isHexDigit a && isHexDigit b && validPercent rest2
      | _ => false
    else validPercent rest

/-- Go `getScheme`.  Scans for `scheme:`; returns `(scheme, rest)`, or
`("", rawURL)` when the prefix is not a valid scheme, or `none` for the
"missing protocol scheme" error (a `:` at position 0).  `acc` holds the
scanned characters in reverse; `acc = []` plays the role of `i == 0`. -/
def getSchemeAux (orig : List Char) (acc : List Char) :
    List Char → Option (List Char × List Char)
  | [] => some ([], orig)
  | c :: cs =>
    if isAsciiLetter c then getSchemeAux orig (c :: acc) cs
    else if isAsciiDigit c || c = '+' || c = '-' || c = '.' then
      if acc = [] then some ([], orig) else getSchemeAux orig (c :: acc) cs
    else if c = ':' then
      if acc = [] then none else some (acc.reverse, cs)
    else some ([], orig)

/-- Entry point of the scheme scanner. -/
def getScheme (s : List Char) : Option (List Char × List Char) :=
  getSchemeAux s [] s

/-- Go `validOptionalPort`: empty, or `:` followed by digits only. -/
def validOptionalPort (p : List Char) : Bool :=
  match p with
  | [] => true
  | c :: rest => c = ':' && rest.all isAsciiDigit

/-- Go `validUserinfo`: letters, digits, and the listed punctuation. -/
def validUserinfo (s : List Char) : Bool :=
  s.all fun c =>
    isAsciiLetter c || isAsciiDigit c ||
    c = '-' || c = '.' || c = '_' || c = ':' || c = '~' || c = '!' ||
    c = '$' || c = '&' || c = Char.ofNat 39 || c = '(' || c = ')' ||
    c = '*' || c = '+' || c = ',' || c = ';' || c = '=' || c = '%' ||
    c = '@'

/-- Go `parseHost`: bracketed IPv6 hosts need a closing `]` and a valid
optional port after it; otherwise the text after the last `:` must be a
valid optional port.  Percent escapes must be well formed (the unescape
step; decoding is not modelled).  Returns the host text unchanged. -/
def parseHost (host : List Char) : Option (List Char) :=
  let portOk : Bool :=
    match host with
    | '[' :: _ =>
      match lastCutAtChar host ']' with
      | none => false
      | some p => validOptionalPort p.2
    | _ =>
      match lastCutAtChar host ':' with
      | none => true
      | some p => validOptionalPort (':' :: p.2)
  if portOk && validPercent host then some host else none

/-- Go `parseAuthority`: split at the last `@` into userinfo and host;
validate both.  Returns `(userinfo?, host)`. -/
def parseAuthority (authority : List Char) :
    Option (Option (List Char) × List Char) :=
  match lastCutAtChar authority '@' with
  | none => (parseHost authority).map (fun h => (none, h))
  | some (userinfo, hostPart) =>
    match parseHost hostPart with
    | none => none
    | some h =>
      if validUserinfo userinfo && validPercent userinfo then
        some (some userinfo, h)
      else none

/-- The fields of Go `url.URL` used by the embedded code.  `opaq` is the
Go field `Opaque` (rootless path). -/
structure GoURL where
  scheme : String
  opaq : String
  user : Option String
  host : String
  path : String
  rawQuery : String
  forceQuery : Bool
  fragment : String
  omitHost : Bool
deriving DecidableEq, Repr

/-- Go `parse(rawURL, viaRequest: false)`: everything after the fragment
cut.  Returns `none` exactly on the error paths of the Go function. -/
def urlParseMain (rawURL : List Char) : Option GoURL :=
  if containsCTL rawURL then none
  else
    match getScheme rawURL with
    | none => none
    | some (sch, rest0) =>
      let scheme := sch.map asciiLowerChar
      -- query split: a lone trailing "?" sets ForceQuery, otherwise cut
      -- at the first "?"
      let step :=
        if rest0.reverse.head? = some '?' ∧ ¬containsChar rest0.dropLast '?' then
          (rest0.dropLast, ([] : List Char), true)
        else
          match cutAtChar rest0 '?' with
          | none => (rest0, [], false)
          | some (before, after) => (before, after, false)
      match step with
      | (rest, rawQuery, forceQuery) =>
        if rest.head? ≠ some '/' then
          if scheme ≠ [] then
            some { scheme := ⟨scheme⟩, opaq := ⟨rest⟩, user := none,
                   host := "", path := "", rawQuery := ⟨rawQuery⟩,
                   forceQuery := forceQuery, fragment := "",
                   omitHost := false }
          else
            -- relative URL: the first path segment may not contain ":"
            let segment := ((cutAtChar rest '/').map Prod.fst).getD rest
            if containsChar segment ':' then none
            else if validPercent rest then
              some { scheme := "", opaq := "", user := none, host := "",
                     path := ⟨rest⟩, rawQuery := ⟨rawQuery⟩,
                     forceQuery := forceQuery, fragment := "",
                     omitHost := false }
            else none
        else
          -- rest starts with "/"
          let hasAuthority :=
            (decide (scheme ≠ []) ||
              !(rest.take 3 = ['/', '/', '/'])) &&
            (rest.take 2 = ['/', '/'])
          if hasAuthority then
            let afterSlashes := rest.drop 2
            let (authority, rest2) :=
              match cutAtChar afterSlashes '/' with
              | none => (afterSlashes, ([] : List Char))
              | some (a, b) => (a, '/' :: b)
            match parseAuthority authority with
            | none => none
            | some (user, host) =>
              if validPercent rest2 then
                some { scheme := ⟨scheme⟩, opaq := "",
                       user := user.map (fun u => (⟨u⟩ : String)),
                       host := ⟨host⟩, path := ⟨rest2⟩,
                       rawQuery := ⟨rawQuery⟩, forceQuery := forceQuery,
                       fragment := "", omitHost := false }
              else none
          else
            if validPercent rest then
              some { scheme := ⟨scheme⟩, opaq := "", user := none,
                     host := "", path := ⟨rest⟩, rawQuery := ⟨rawQuery⟩,
                     forceQuery := forceQuery, fragment := "",
                     omitHost := decide (scheme ≠ []) }
            else none

/-- Go `url.Parse`: cut the fragment off first, parse the remainder, then
validate the fragment's escaping (`setFragment`). -/
def urlParse (rawURL : String) : Option GoURL :=
  match cutAtChar rawURL.data '#' with
  | none => urlParseMain rawURL.data
  | some (before, frag) =>
    match urlParseMain before with
    | none => none
    | some u =>
      if validPercent frag then some { u with fragment := ⟨frag⟩ } else none

/-- Go `url.Query().Get(key)`: split `RawQuery` on `&`, skip empty pieces
and pieces containing `;` (Go rejects semicolon separators), cut each
piece at the first `=`, and return the first value bound to `key`
(decoding of percent escapes is not modelled; the embedded callers use
plain keys and values). -/
def queryGet (rawQuery : String) (key : String) : String :=
  let pieces := rawQuery.data.splitOn '&'
  let rec find : List (List Char) → String
    | [] => ""
    | p :: rest =>
      if p = [] ∨ containsChar p ';' then find rest
      else
        match cutAtChar p '=' with
        | none => if p = key.data then "" else find rest
        | some (k, v) => if k = key.data then ⟨v⟩ else find rest
  find pieces

/-- Go `(u *URL) String()`: scheme, opaque-or-authority-plus-path, query,
fragment.  Host and fragment re-escaping are the identity on the inputs
considered (no characters that Go would escape); `EscapedPath` returns
the stored raw path (see the model note above). -/
def GoURL.toGoString (u : GoURL) : String :=
  let schemePart := if u.scheme ≠ "" then u.scheme ++ ":" else ""
  let body :=
    if u.opaq ≠ "" then u.opaq
    else
      let auth :=
        if u.scheme ≠ "" ∨ u.host ≠ "" ∨ u.user.isSome then
          if u.omitHost ∧ u.host = "" ∧ u.user = none then ""
          else
            (if u.host ≠ "" ∨ u.path ≠ "" ∨ u.user.isSome then "//" else "")
            ++ (match u.user with | some ui => ui ++ "@" | none => "")
            ++ u.host
        else ""
      let slash :=
        if u.path ≠ "" ∧ u.path.data.head? ≠ some '/' ∧ u.host ≠ "" then "/"
        else ""
      let dotSlash :=
        if schemePart = "" ∧ auth = "" ∧ slash = "" then
          let segment :=
            ((cutAtChar u.path.data '/').map Prod.fst).getD u.path.data
          if containsChar segment ':' then "./" else ""
        else ""
      auth ++ slash ++ dotSlash ++ u.path
  schemePart ++ body
    ++ (if u.forceQuery ∨ u.rawQuery ≠ "" then "?" ++ u.rawQuery else "")
    ++ (if u.fragment ≠ "" then "#" ++ u.fragment else "")

/-! ## The two `parseSourceURL` copies -/

/-- `components.DefaultRepoType`. -/
def DefaultRepoType : String := "git"

/-- `parseSourceURL` from `internal/components/component.go`: on a parse
error it returns the source as-is with the default type; otherwise it
extracts `version` and `type` from the query (defaulting the type to
`"git"`, which is what every branch of the Go `switch` on the scheme
yields), clears the query string, and rewrites a leading `git://` to
`https://`. -/
def parseSourceURLComponents (source : String) : String × String × String :=
  match urlParse source with
  | none => (source, "", DefaultRepoType)
  | some u =>
    let version := queryGet u.rawQuery "version"
    let repoType0 := queryGet u.rawQuery "type"
    -- Go: switch u.Scheme { case "git","https","http","file","ssh":
    --   repoType = DefaultRepoType; default: repoType = DefaultRepoType }
    let repoType := if repoType0 = "" then DefaultRepoType else repoType0
    let u2 := { u with rawQuery := "" }
    let repoURL0 := u2.toGoString
    let repoURL :=
      if repoURL0.data.take 6 = "git://".data then
        "https://" ++ (⟨repoURL0.data.drop 6⟩ : String)
      else repoURL0
    (repoURL, version, repoType)

/-- `parseSourceURL` from `internal/commands` (workspace sync): on a parse
error it returns the source as-is with an EMPTY type (unlike the
components copy there is no default); otherwise same extraction, query
clearing and `git://`→`https://` rewrite (the `file://` branch reassigns
`u.String()`, which is the same value). -/
def parseSourceURLCommands (source : String) : String × String × String :=
  match urlParse source with
  | none => (source, "", "")
  | some u =>
    let version := queryGet u.rawQuery "version"
    let schemaType := queryGet u.rawQuery "type"
    let u2 := { u with rawQuery := "" }
    let repoURL0 := u2.toGoString
    let repoURL1 :=
      if repoURL0.data.take 6 = "git://".data then
        "https://" ++ (⟨repoURL0.data.drop 6⟩ : String)
      else repoURL0
    let repoURL :=
      if repoURL1.data.take 7 = "file://".data then u2.toGoString else repoURL1
    (repoURL, version, schemaType)

/-- `(comp *Component) ResolveRepo` from the components package. -/
def resolveRepo (source : String) : String :=
  if source = "" then "" else (parseSourceURLComponents source).1

/-! ## Theorems: Result Store (claims C2, C10) -/

/-- C2, counterexample: with two in-progress records named `"a"` (the
record at index 1 being the more recently appended one), `UpdateResult`
rewrites the record at index 0 — the OLDEST match — and leaves the most
recent in-progress record untouched and still in progress.  The claim
that the most recent matching record is updated is therefore false. -/
theorem updateResult_oldest_not_most_recent_cex :
    (updateResult (setInProgress (setInProgress [] "a") "a")
        "a" SyncActionCloned "v1" none).get? 0 =
      some { error := none, name := "a", action := SyncActionCloned,
             version := "v1", inProgress := false } ∧
    (updateResult (setInProgress (setInProgress [] "a") "a")
        "a" SyncActionCloned "v1" none).get? 1 =
      some { error := none, name := "a", action := "", version := "",
             inProgress := true } := by
  constructor <;> rfl

/-- C2 (amended): `UpdateResult` updates the FIRST (oldest) in-progress
record matching the name — the scan starts at index 0 and returns at the
first hit — setting its action, version and error and clearing the
in-progress flag, while every other record, before or after it, is
returned unchanged. -/
theorem updateResult_updates_first_in_progress
    (pre post : List SyncResult) (r : SyncResult)
    (name action version : String) (err : Option String)
    (hpre : ∀ x ∈ pre, ¬(x.name = name ∧ x.inProgress = true))
    (hname : r.name = name) (hprog : r.inProgress = true) :
    updateResult (pre ++ r :: post) name action version err =
      pre ++ { r with action := action, version := version, error := err,
                      inProgress := false } :: post :=
  updateResult_first_match pre post r name action version err hpre hname hprog

/-- Witness for `updateResult_updates_first_in_progress` at a concrete
store: a non-matching head record, then two in-progress `"a"` records. -/
theorem updateResult_updates_first_in_progress_witness :
    updateResult
        ([{ error := none, name := "b", action := "", version := "",
            inProgress := true }] ++
          { error := none, name := "a", action := "", version := "",
            inProgress := true } ::
            [{ error := none, name := "a", action := "", version := "",
               inProgress := true }])
        "a" SyncActionUpdated "v2" none =
      [{ error := none, name := "b", action := "", version := "",
         inProgress := true }] ++
        { error := none, name := "a", action := SyncActionUpdated,
          version := "v2", inProgress := false } ::
          [{ error := none, name := "a", action := "", version := "",
             inProgress := true }] :=
  updateResult_updates_first_in_progress _ _ _ _ _ _ _
    (by decide) (by decide) (by decide)

/-- C10: calling `UpdateResult` with a name for which no record is
currently in progress leaves the Result Store completely unchanged — the
loop finds no record with a matching name and a set in-progress flag, so
nothing is appended and nothing is modified. -/
theorem updateResult_no_in_progress_noop
    (rs : List SyncResult) (name action version : String)
    (err : Option String)
    (h : ∀ r ∈ rs, ¬(r.name = name ∧ r.inProgress = true)) :
    updateResult rs name action version err = rs :=
  updateResult_no_match rs name action version err h

/-- Witness for `updateResult_no_in_progress_noop`: a store holding a
terminal record named `"a"` and an in-progress record named `"b"`; an
update aimed at `"a"` changes nothing. -/
theorem updateResult_no_in_progress_noop_witness :
    updateResult
        [{ error := none, name := "a", action := "cloned", version := "v1",
           inProgress := false },
         { error := none, name := "b", action := "", version := "",
           inProgress := true }]
        "a" SyncActionFailed "" (some "boom") =
      [{ error := none, name := "a", action := "cloned", version := "v1",
         inProgress := false },
       { error := none, name := "b", action := "", version := "",
         inProgress := true }] :=
  updateResult_no_in_progress_noop _ _ _ _ _ (by decide)

/-! ## Theorems: source resolver (claims C3, C4) -/

/-- C3: Go's `url.Parse` rejects the SCP form (`first path segment in URL
cannot contain colon`), so BOTH copies of `parseSourceURL` return the
source string completely unchanged — query string included — with an
EMPTY version: the SCP path shape survives only because the whole string
does, and `version=v2.0.0` is NOT extracted.  The final conjunct
evaluates `ResolveRepo` at the input of the repository's own test
`TestResolveRepo/"SSH format URL should be preserved"`, whose expected
value `"git@github.com:monhang/monhang.git"` the code does not produce. -/
theorem parseSourceURL_scp_form_degrades :
    parseSourceURLCommands "git@host:org/repo.git?version=v2.0.0" =
      ("git@host:org/repo.git?version=v2.0.0", "", "") ∧
    parseSourceURLComponents "git@host:org/repo.git?version=v2.0.0" =
      ("git@host:org/repo.git?version=v2.0.0", "", "git") ∧
    resolveRepo "git@github.com:monhang/monhang.git?version=v1.0.0" ≠
      "git@github.com:monhang/monhang.git" := by
  refine ⟨rfl, rfl, ?_⟩
  decide

/-- C4, counterexample: `"://x"` cannot be parsed (missing protocol
scheme), and the `commands`-package copy of `parseSourceURL` returns an
EMPTY type for it, not the default `"git"` the claim states. -/
theorem parseSourceURL_commands_empty_type_cex :
    urlParse "://x" = none ∧
    (parseSourceURLCommands "://x").2.2 ≠ DefaultRepoType := by
  constructor
  · rfl
  · decide

/-- C4 (amended): for every source string that Go's `url.Parse` rejects,
both copies of `parseSourceURL` return the source unchanged with an empty
version and no error is raised (the functions are total); the
`components`-package copy returns the default type `"git"`, while the
`commands`-package copy returns an empty type. -/
theorem parseSourceURL_unparsable_passthrough (s : String)
    (h : urlParse s = none) :
    parseSourceURLComponents s = (s, "", DefaultRepoType) ∧
    parseSourceURLCommands s = (s, "", "") := by
  constructor
  · simp only [parseSourceURLComponents, h]
  · simp only [parseSourceURLCommands, h]

/-- Witness for `parseSourceURL_unparsable_passthrough` at `"://x"`. -/
theorem parseSourceURL_unparsable_passthrough_witness :
    parseSourceURLComponents "://x" = ("://x", "", DefaultRepoType) ∧
    parseSourceURLCommands "://x" = ("://x", "", "") :=
  parseSourceURL_unparsable_passthrough "://x" rfl

/-! ## Sync engine (`commands` package)

`executeGitCmd` spawns a git subprocess; it is modelled as an oracle
mapping each invocation to its trimmed output text and optional error
text.  `os.Stat` is likewise an oracle from path strings to optional stat
results.  Each sync function additionally returns the list of git
invocations it performed, in order, so that theorems can talk about which
operations ran. -/

/-- The git invocations issued by the sync engine (argument vectors of
`executeGitCmd` calls; the first `String` of each constructor is the
working directory `dir`, `""` meaning the parent directory). -/
inductive GitCmd where
  | clone (repoURL name : String)
  | fetchAllTags (dir : String)
  | checkout (dir ref : String)
  | pull (dir : String)
  | describeTags (dir : String)
  | revParseAbbrevRef (dir : String)
  | revParseShort (dir : String)
deriving DecidableEq, Repr

/-- Oracle for `executeGitCmd`: output text and optional error text. -/
def GitOracle : Type := GitCmd → String × Option String

/-- The slice of `os.FileInfo` consulted by `componentExists`. -/
structure FileStat where
  isDir : Bool
deriving DecidableEq, Repr

/-- Oracle for `os.Stat`: `none` models a stat error (no such file). -/
def StatOracle : Type := String → Option FileStat

/-- Go `filepath.Join` for the two shapes used by `componentExists`
(`Join(".", name)` and `Join(path, ".git")`): empty operands collapse, a
lone `"."` is dropped by Clean, otherwise the parts are joined with `/`.
Further Clean rewriting (`..` collapsing etc.) is not modelled. -/
def goJoin (a b : String) : String :=
  if a = "" then b
  else if b = "" then a
  else if a = "." then b
  else a ++ "/" ++ b

/-- `componentExists`: stat `./<name>/.git` and require a directory. -/
def componentExists (stat : StatOracle) (name : String) : Bool :=
  match stat (goJoin (goJoin "." name) ".git") with
  | none => false
  | some info => info.isDir

/-- `cloneComponent`: run `git clone <repoURL> <name>` in the parent
directory; on success, if a version is given, `git checkout <version>`
inside the clone.  Returns the optional error (with the Go wrap texts)
and the invocation trace. -/
def cloneComponent (g : GitOracle) (name repoURL version : String) :
    Option String × List GitCmd :=
  let c := GitCmd.clone repoURL name
  match (g c).2 with
  | some e => (some ("clone failed: " ++ e), [c])
  | none =>
    if version ≠ "" then
      let ck := GitCmd.checkout name version
      match (g ck).2 with
      | some e => (some ("checkout " ++ version ++ " failed: " ++ e), [c, ck])
      | none => (none, [c, ck])
    else (none, [c])

/-- `updateComponent`: always `git fetch --all --tags` first; then either
`git checkout <version>` (when a version is given) or `git pull`.
Returns the action string, the optional error, and the trace. -/
def updateComponent (g : GitOracle) (name version : String) :
    String × Option String × List GitCmd :=
  let f := GitCmd.fetchAllTags name
  match (g f).2 with
  | some e => ("", some ("fetch failed: " ++ e), [f])
  | none =>
    if version ≠ "" then
      let ck := GitCmd.checkout name version
      match (g ck).2 with
      | some e =>
        ("", some ("checkout " ++ version ++ " failed: " ++ e), [f, ck])
      | none => (SyncActionUpdated, none, [f, ck])
    else
      let p := GitCmd.pull name
      match (g p).2 with
      | some e => ("", some ("pull failed: " ++ e), [f, p])
      | none => (SyncActionUpdated, none, [f, p])

/-- `getCurrentVersion`: exact tag, else current branch name, else short
commit hash.  Returns the text and the trace. -/
def getCurrentVersion (g : GitOracle) (name : String) :
    String × List GitCmd :=
  let d := GitCmd.describeTags name
  let (tag, e1) := g d
  if e1 = none ∧ tag ≠ "" then (tag, [d])
  else
    let b := GitCmd.revParseAbbrevRef name
    let (branch, e2) := g b
    if e2 = none ∧ branch ≠ "" then (branch, [d, b])
    else
      let h := GitCmd.revParseShort name
      ((g h).1, [d, b, h])

/-- `components.Component` (manifest tree node), field order as in the Go
struct: Source, Name, Description, Version.  The recursive child list
`Components` is not consulted by any embedded operation and is omitted. -/
structure Component where
  source : String
  name : String
  description : String
  version : String
deriving DecidableEq, Repr

/-- `syncComponentBackground` from the `commands` package: mark the
component in progress, resolve its source, then — depending on
`componentExists` — update or clone, and record the terminal result.
Returns the new Result Store contents and the git invocation trace. -/
def syncComponentBackground (stat : StatOracle) (g : GitOracle)
    (comp : Component) (results : List SyncResult) :
    List SyncResult × List GitCmd :=
  let results1 := setInProgress results comp.name
  match parseSourceURLCommands comp.source with
  | (repoURL, version, _) =>
    if componentExists stat comp.name then
      match updateComponent g comp.name version with
      | (action, err, tr) =>
        match err with
        | some e =>
          (updateResult results1 comp.name SyncActionFailed "" (some e), tr)
        | none =>
          match getCurrentVersion g comp.name with
          | (currentVer, tr2) =>
            (updateResult results1 comp.name action currentVer none,
             tr ++ tr2)
    else
      match cloneComponent g comp.name repoURL version with
      | (err, tr) =>
        match err with
        | some e =>
          (updateResult results1 comp.name SyncActionFailed "" (some e), tr)
        | none =>
          match getCurrentVersion g comp.name with
          | (currentVer, tr2) =>
            (updateResult results1 comp.name SyncActionCloned currentVer none,
             tr ++ tr2)

/-- Does a trace entry run `git clone`? -/
def isCloneCmd : GitCmd → Bool
  | .clone _ _ => true
  | _ => false

/-- Does a trace entry run `git fetch --all --tags`? -/
def isFetchCmd : GitCmd → Bool
  | .fetchAllTags _ => true
  | _ => false

/-- The trace of `updateComponent` always begins with the fetch and never
contains a clone. -/
theorem updateComponent_trace (g : GitOracle) (name version : String) :
    ((updateComponent g name version).2.2).any isFetchCmd = true ∧
    ((updateComponent g name version).2.2).any isCloneCmd = false := by
  cases hf : (g (GitCmd.fetchAllTags name)).2 with
  | none =>
    by_cases hv : version = ""
    · cases hp : (g (GitCmd.pull name)).2 <;>
        simp [updateComponent, hf, hv, hp, isCloneCmd, isFetchCmd]
    · cases hc : (g (GitCmd.checkout name version)).2 <;>
        simp [updateComponent, hf, hv, hc, isCloneCmd, isFetchCmd]
  | some e => simp [updateComponent, hf, isCloneCmd, isFetchCmd]

/-- The trace of `cloneComponent` always begins with the clone and never
contains a fetch. -/
theorem cloneComponent_trace (g : GitOracle) (name repoURL version : String) :
    ((cloneComponent g name repoURL version).2).any isCloneCmd = true ∧
    ((cloneComponent g name repoURL version).2).any isFetchCmd = false := by
  cases hcl : (g (GitCmd.clone repoURL name)).2 with
  | none =>
    by_cases hv : version = ""
    · simp [cloneComponent, hcl, hv, isCloneCmd, isFetchCmd]
    · cases hc : (g (GitCmd.checkout name version)).2 <;>
        simp [cloneComponent, hcl, hv, hc, isCloneCmd, isFetchCmd]
  | some e => simp [cloneComponent, hcl, isCloneCmd, isFetchCmd]

/-- The trace of `getCurrentVersion` contains neither clones nor
fetches. -/
theorem getCurrentVersion_trace (g : GitOracle) (name : String) :
    ((getCurrentVersion g name).2).any isCloneCmd = false ∧
    ((getCurrentVersion g name).2).any isFetchCmd = false := by
  unfold getCurrentVersion
  rcases hd : g (GitCmd.describeTags name) with ⟨tag, e1⟩
  rcases hb : g (GitCmd.revParseAbbrevRef name) with ⟨branch, e2⟩
  simp only [hd, hb]
  by_cases h1 : e1 = none ∧ tag ≠ "" <;>
    by_cases h2 : e2 = none ∧ branch ≠ "" <;>
      simp [h1, h2, isCloneCmd, isFetchCmd]

/-- C1: for every filesystem state, git behavior, component and prior
Result Store contents, the sync engine runs a fetch (the update path) if
and only if `componentExists` holds, runs a clone (the clone path) if and
only if it does not, never runs both, always runs one of the two — and
`componentExists` is exactly the check that `os.Stat("./<name>/.git")`
succeeds and reports a directory. -/
theorem sync_clone_xor_update (stat : StatOracle) (g : GitOracle)
    (comp : Component) (rs : List SyncResult) :
    (((syncComponentBackground stat g comp rs).2).any isFetchCmd = true ↔
        componentExists stat comp.name = true) ∧
    (((syncComponentBackground stat g comp rs).2).any isCloneCmd = true ↔
        componentExists stat comp.name = false) ∧
    ¬(((syncComponentBackground stat g comp rs).2).any isFetchCmd = true ∧
        ((syncComponentBackground stat g comp rs).2).any isCloneCmd = true) ∧
    (((syncComponentBackground stat g comp rs).2).any isFetchCmd = true ∨
        ((syncComponentBackground stat g comp rs).2).any isCloneCmd = true) ∧
    componentExists stat comp.name =
      (match stat (goJoin (goJoin "." comp.name) ".git") with
       | none => false
       | some info => info.isDir) := by
  have hmain :
      ((syncComponentBackground stat g comp rs).2).any isFetchCmd
          = componentExists stat comp.name ∧
      ((syncComponentBackground stat g comp rs).2).any isCloneCmd
          = !componentExists stat comp.name := by
    unfold syncComponentBackground
    rcases hp : parseSourceURLCommands comp.source with ⟨repoURL, version, ty⟩
    by_cases hce : componentExists stat comp.name
    · simp only [hp, hce, if_true]
      rcases hu : updateComponent g comp.name version with ⟨action, err, tr⟩
      have htr := updateComponent_trace g comp.name version
      rw [hu] at htr
      cases err with
      | none =>
        rcases hgv : getCurrentVersion g comp.name with ⟨cv, tr2⟩
        have hgtr := getCurrentVersion_trace g comp.name
        rw [hgv] at hgtr
        simp only at htr hgtr
        simp [List.any_append, htr.1, htr.2, hgtr.1, hgtr.2]
      | some e =>
        simp only at htr
        simp [htr.1, htr.2]
    · simp only [hp, hce, if_false, Bool.not_eq_true] at *
      simp only [hce, Bool.false_eq_true, if_false]
      rcases hcl : cloneComponent g comp.name repoURL version with ⟨err, tr⟩
      have htr := cloneComponent_trace g comp.name repoURL version
      rw [hcl] at htr
      cases err with
      | none =>
        rcases hgv : getCurrentVersion g comp.name with ⟨cv, tr2⟩
        have hgtr := getCurrentVersion_trace g comp.name
        rw [hgv] at hgtr
        simp only at htr hgtr
        simp [List.any_append, htr.1, htr.2, hgtr.1, hgtr.2]
      | some e =>
        simp only at htr
        simp [htr.1, htr.2]
  rcases hmain with ⟨hf, hc⟩
  refine ⟨?_, ?_, ?_, ?_, rfl⟩
  · rw [hf]
  · rw [hc]
    cases componentExists stat comp.name <;> simp
  · rw [hf, hc]
    cases componentExists stat comp.name <;> simp
  · rw [hf, hc]
    cases componentExists stat comp.name <;> simp

/-- Marking a component in progress and then recording its terminal state
appends exactly one terminal record, provided no earlier record of the
store was already in progress under that name. -/
theorem updateResult_after_mark (rs : List SyncResult)
    (name action version : String) (err : Option String)
    (h : ∀ r ∈ rs, ¬(r.name = name ∧ r.inProgress = true)) :
    updateResult (setInProgress rs name) name action version err =
      rs ++ [{ error := err, name := name, action := action,
               version := version, inProgress := false }] := by
  have hfm := updateResult_first_match rs []
    { error := none, name := name, action := "", version := "",
      inProgress := true } name action version err h rfl rfl
  simpa [setInProgress] using hfm

/-- C6: on the update path (the component's `.git` directory exists) with
no in-progress record already stored under the component's name:
a fetch failure records Failed with the wrapped fetch error; when the
source resolved to a version, the engine runs fetch then checkout of that
version, records Failed with the wrapped checkout error on checkout
failure and Updated (with the probed current version) on success; when no
version was resolved, the engine runs fetch then pull, recording Failed
with the wrapped pull error on failure and Updated on success. -/
theorem sync_update_path_behavior (stat : StatOracle) (g : GitOracle)
    (comp : Component) (rs : List SyncResult)
    (hex : componentExists stat comp.name = true)
    (hrs : ∀ r ∈ rs, ¬(r.name = comp.name ∧ r.inProgress = true)) :
    (∀ e, (g (GitCmd.fetchAllTags comp.name)).2 = some e →
        (syncComponentBackground stat g comp rs).1 =
          rs ++ [{ error := some ("fetch failed: " ++ e),
                   name := comp.name, action := SyncActionFailed,
                   version := "", inProgress := false }]) ∧
    ((parseSourceURLCommands comp.source).2.1 ≠ "" →
      (g (GitCmd.fetchAllTags comp.name)).2 = none →
      (∀ e, (g (GitCmd.checkout comp.name
              (parseSourceURLCommands comp.source).2.1)).2 = some e →
          (syncComponentBackground stat g comp rs).1 =
            rs ++ [{ error := some ("checkout " ++
                       (parseSourceURLCommands comp.source).2.1 ++
                       " failed: " ++ e),
                     name := comp.name, action := SyncActionFailed,
                     version := "", inProgress := false }]) ∧
      ((g (GitCmd.checkout comp.name
            (parseSourceURLCommands comp.source).2.1)).2 = none →
        (syncComponentBackground stat g comp rs).1 =
          rs ++ [{ error := none, name := comp.name,
                   action := SyncActionUpdated,
                   version := (getCurrentVersion g comp.name).1,
                   inProgress := false }] ∧
        (syncComponentBackground stat g comp rs).2 =
          [GitCmd.fetchAllTags comp.name,
           GitCmd.checkout comp.name
             (parseSourceURLCommands comp.source).2.1] ++
            (getCurrentVersion g comp.name).2)) ∧
    ((parseSourceURLCommands comp.source).2.1 = "" →
      (g (GitCmd.fetchAllTags comp.name)).2 = none →
      (∀ e, (g (GitCmd.pull comp.name)).2 = some e →
          (syncComponentBackground stat g comp rs).1 =
            rs ++ [{ error := some ("pull failed: " ++ e),
                     name := comp.name, action := SyncActionFailed,
                     version := "", inProgress := false }]) ∧
      ((g (GitCmd.pull comp.name)).2 = none →
        (syncComponentBackground stat g comp rs).1 =
          rs ++ [{ error := none, name := comp.name,
                   action := SyncActionUpdated,
                   version := (getCurrentVersion g comp.name).1,
                   inProgress := false }] ∧
        (syncComponentBackground stat g comp rs).2 =
          [GitCmd.fetchAllTags comp.name, GitCmd.pull comp.name] ++
            (getCurrentVersion g comp.name).2)) := by
  rcases hP : parseSourceURLCommands comp.source with ⟨ru, v, ty⟩
  simp only [hP]
  refine ⟨?_, ?_, ?_⟩
  · intro e he
    have hu : updateComponent g comp.name v =
        ("", some ("fetch failed: " ++ e),
          [GitCmd.fetchAllTags comp.name]) := by
      unfold updateComponent
      dsimp only
      rw [he]
    unfold syncComponentBackground
    rw [hP]
    simp only [hex, if_true, hu]
    exact updateResult_after_mark rs comp.name SyncActionFailed "" _ hrs
  · intro hv hf
    constructor
    · intro e he
      have hu : updateComponent g comp.name v =
          ("", some ("checkout " ++ v ++ " failed: " ++ e),
            [GitCmd.fetchAllTags comp.name,
             GitCmd.checkout comp.name v]) := by
        unfold updateComponent
        dsimp only
        rw [hf]
        simp [hv, he]
      unfold syncComponentBackground
      rw [hP]
      simp only [hex, if_true, hu]
      exact updateResult_after_mark rs comp.name SyncActionFailed "" _ hrs
    · intro hc
      have hu : updateComponent g comp.name v =
          (SyncActionUpdated, none,
            [GitCmd.fetchAllTags comp.name,
             GitCmd.checkout comp.name v]) := by
        unfold updateComponent
        dsimp only
        rw [hf]
        simp [hv, hc]
      rcases hgv : getCurrentVersion g comp.name with ⟨cv, tr2⟩
      unfold syncComponentBackground
      rw [hP]
      simp only [hex, if_true, hu, hgv]
      exact ⟨updateResult_after_mark rs comp.name SyncActionUpdated cv none hrs,
             trivial⟩
  · intro hv hf
    constructor
    · intro e he
      have hu : updateComponent g comp.name v =
          ("", some ("pull failed: " ++ e),
            [GitCmd.fetchAllTags comp.name, GitCmd.pull comp.name]) := by
        unfold updateComponent
        dsimp only
        rw [hf]
        simp [hv, he]
      unfold syncComponentBackground
      rw [hP]
      simp only [hex, if_true, hu]
      exact updateResult_after_mark rs comp.name SyncActionFailed "" _ hrs
    · intro hc
      have hu : updateComponent g comp.name v =
          (SyncActionUpdated, none,
            [GitCmd.fetchAllTags comp.name, GitCmd.pull comp.name]) := by
        unfold updateComponent
        dsimp only
        rw [hf]
        simp [hv, hc]
      rcases hgv : getCurrentVersion g comp.name with ⟨cv, tr2⟩
      unfold syncComponentBackground
      rw [hP]
      simp only [hex, if_true, hu, hgv]
      exact ⟨updateResult_after_mark rs comp.name SyncActionUpdated cv none hrs,
             trivial⟩

/-- A filesystem in which only `comp-a/.git` exists, as a directory. -/
def statEx : StatOracle := fun s =>
  if s = "comp-a/.git" then some { isDir := true } else none

/-- A git oracle for which every invocation succeeds with empty output. -/
def gitOkEx : GitOracle := fun _ => ("", none)

/-- A component whose source resolves to version `v1`. -/
def compEx : Component :=
  { source := "https://h/r.git?version=v1", name := "comp-a",
    description := "", version := "" }

/-- Witness for `sync_update_path_behavior`: on `compEx` over `statEx`
(update path) with the all-succeeding oracle, the engine fetches, checks
out `v1`, probes the current version and records Updated. -/
theorem sync_update_path_behavior_witness :
    (syncComponentBackground statEx gitOkEx compEx []).1 =
      [{ error := none, name := "comp-a", action := SyncActionUpdated,
         version := "", inProgress := false }] ∧
    (syncComponentBackground statEx gitOkEx compEx []).2 =
      [GitCmd.fetchAllTags "comp-a", GitCmd.checkout "comp-a" "v1",
       GitCmd.describeTags "comp-a", GitCmd.revParseAbbrevRef "comp-a",
       GitCmd.revParseShort "comp-a"] := by
  have h := (sync_update_path_behavior statEx gitOkEx compEx [] rfl
    (by simp)).2.1 (by decide) rfl
  have h2 := h.2 rfl
  constructor
  · rw [h2.1]
    rfl
  · rw [h2.2]
    rfl

/-! ## Name derivation for components lacking an explicit name

The implementation of `deriveNameFromURL` / `GetName` is not part of the
provided sources (only the tests in
`internal/components/component_test.go` exercise it), so it is modelled
from the specification's words below. -/

/-- Replace OS-specific separators: `\` becomes `/`. -/
def replaceSeps (s : List Char) : List Char :=
  s.map fun c => if c = '\\' then '/' else c

/-- Split at the first occurrence of `://` (scheme separator). -/
def cutAtSchemeSep : List Char → Option (List Char × List Char)
  | [] => none
  | ':' :: '/' :: '/' :: rest => some ([], rest)
  | c :: rest =>
    (cutAtSchemeSep rest).map (fun p => (c :: p.1, p.2))

/-- Remove trailing path separators. -/
def dropTrailingSlashes (s : List Char) : List Char :=
  (s.reverse.dropWhile (· = '/')).reverse

/-- The fixed default placeholder name. -/
def DefaultComponentName : String := "component"

/-- Modelled from the spec: `deriveNameFromURL` (absent from the provided
sources; only its tests are present).  Per §4.1 of the specification:
take the path part of the URL (after the scheme and host) or of the SCP
form (after the `user@host:` colon), replace OS-specific separators,
strip any trailing path separator and a trailing `.git` segment, and take
the final non-empty path component; if nothing usable remains (empty
source, a lone `.`, or a source reducing to only `.git`) fall back to the
fixed default placeholder name.  The function is pure and deterministic
by construction. -/
def deriveNameFromURL (repoURL : String) : String :=
  let s := replaceSeps repoURL.data
  let path :=
    match cutAtSchemeSep s with
    | some (_, afterSep) =>
      -- URL form: keep only the path following the host
      match cutAtChar afterSep '/' with
      | none => []
      | some (_, p) => '/' :: p
    | none =>
      -- SCP form `user@host:path`: keep the part after the colon
      match cutAtChar s ':' with
      | some (beforeColon, afterColon) =>
        if containsChar beforeColon '@' then afterColon else s
      | none => s
  let t1 := dropTrailingSlashes path
  let t2 :=
    if t1.reverse.take 4 = ['t', 'i', 'g', '.'] then
      (t1.reverse.drop 4).reverse
    else t1
  let t3 := dropTrailingSlashes t2
  let base :=
    match lastCutAtChar t3 '/' with
    | none => t3
    | some p => p.2
  if base = [] ∨ base = ['.'] then DefaultComponentName else ⟨base⟩

/-- Modelled from the spec: `(comp *Component) GetName` uses the explicit
name when present and otherwise derives one from the resolved source. -/
def getName (comp : Component) : String :=
  if comp.name ≠ "" then comp.name
  else deriveNameFromURL (resolveRepo comp.source)

/-- C5: name derivation satisfies the specified examples —
`https://github.com/org/my-repo.git` derives `my-repo`, `git@host.xz:foo`
derives `foo`, and the empty string, a lone `.`, and sources reducing to
only `.git` (in URL and in SCP shape) derive the default placeholder —
and `GetName` derives the name exactly when the explicit name is empty.
(Determinism is immediate: the model is a pure function.) -/
theorem deriveName_examples :
    deriveNameFromURL "https://github.com/org/my-repo.git" = "my-repo" ∧
    deriveNameFromURL "git@host.xz:foo" = "foo" ∧
    deriveNameFromURL "" = DefaultComponentName ∧
    deriveNameFromURL "." = DefaultComponentName ∧
    deriveNameFromURL "https://example.com/.git" = DefaultComponentName ∧
    deriveNameFromURL "git@host.xz:.git" = DefaultComponentName ∧
    deriveNameFromURL ".git" = DefaultComponentName ∧
    getName { source := "https://github.com/org/my-repo.git", name := "",
              description := "", version := "" } = "my-repo" ∧
    getName { source := "https://github.com/org/my-repo.git",
              name := "explicit", description := "", version := "" } =
      "explicit" := by
  refine ⟨rfl, rfl, rfl, rfl, rfl, rfl, rfl, ?_, rfl⟩
  rfl

/-! ## Dependency graph (`internal/monhang/component.go`)

`ProcessDeps` builds a `graph.Graph` (github.com/twmb/algoimpl): the
project node is made first, then one node and one edge per dependency.
The graph is modelled concretely: node values in creation order (so the
node index is the list position, the project being index 0) and directed
edges as index pairs in creation order. -/

/-- `RepoConfig` (fields Type, Base). -/
structure RepoConfig where
  type : String
  base : String
deriving DecidableEq, Repr

/-- `ComponentRef` of the `monhang` package (Repoconfig, Name, Version,
Repo; the embedded `graph.Node` handle is represented by the node's index
in the graph below). -/
structure ComponentRef where
  repoconfig : Option RepoConfig
  name : String
  version : String
  repo : String
deriving DecidableEq, Repr

/-- `Dependency`: build, runtime and install (`Intall` in the source)
dependency lists. -/
structure Dependency where
  build : List ComponentRef
  runtime : List ComponentRef
  intall : List ComponentRef
deriving DecidableEq, Repr

/-- `Project`: the embedded toplevel `ComponentRef` plus `Deps`. -/
structure Project where
  ref : ComponentRef
  deps : Dependency
deriving DecidableEq, Repr

/-- A node value: `*node.Value` holds either the project or a
dependency's (possibly repoconfig-inherited) `ComponentRef`. -/
inductive NodeVal where
  | proj (p : Project)
  | dep (c : ComponentRef)
deriving DecidableEq, Repr

/-- The modelled `graph.Graph`: node values by index and directed edges
`(from, to)`, both in creation order. -/
structure DepGraph where
  nodes : List NodeVal
  edges : List (Nat × Nat)
deriving DecidableEq, Repr

/-- The repoconfig-inheritance step `ProcessDeps` performs before
inserting a dependency: a dependency lacking its own `Repoconfig` gets
the project's. -/
def inheritConfig (parent : Option RepoConfig) (d : ComponentRef) :
    ComponentRef :=
  if d.repoconfig = none then { d with repoconfig := parent } else d

/-- One loop iteration of `ProcessDeps`.  When the dependency lacks a
`Repoconfig`, the Go code evaluates `proj.Repoconfig.Base` as a
debug-log argument before inheriting — a nil-pointer dereference when the
project has no repoconfig either, so the program PANICS there; `none`
models that crash.  Otherwise: inherit if needed, `MakeNode` (append a
node) and `MakeEdge` from the project node (index 0) to it. -/
def addDep (parent : Option RepoConfig) (g : DepGraph) (d : ComponentRef) :
    Option DepGraph :=
  if d.repoconfig = none ∧ parent = none then none
  else
    let d2 := inheritConfig parent d
    some { nodes := g.nodes ++ [NodeVal.dep d2],
           edges := g.edges ++ [(0, g.nodes.length)] }

/-- One dependency loop of `ProcessDeps`; a panic aborts the loop. -/
def processDepsList (parent : Option RepoConfig) :
    List ComponentRef → DepGraph → Option DepGraph
  | [], g => some g
  | d :: rest, g =>
    match addDep parent g d with
    | none => none
    | some g2 => processDepsList parent rest g2

/-- `(proj *Project) ProcessDeps`: a fresh directed graph, the project
node first, then the `Build` loop and the `Runtime` loop (`none` when
either loop panics).  The `Intall` list is never visited. -/
def processDeps (p : Project) : Option DepGraph :=
  match processDepsList p.ref.repoconfig p.deps.build
      { nodes := [NodeVal.proj p], edges := [] } with
  | none => none
  | some g1 => processDepsList p.ref.repoconfig p.deps.runtime g1

/-- Closed form of a panic-free dependency-insertion loop: nodes are
appended in list order with inheritance applied, and each new node
receives one edge from node 0. -/
theorem processDepsList_ok (parent : Option RepoConfig)
    (l : List ComponentRef) (g : DepGraph)
    (h : ∀ d ∈ l, ¬(d.repoconfig = none ∧ parent = none)) :
    processDepsList parent l g =
      some { nodes :=
               g.nodes ++ l.map (fun d => NodeVal.dep (inheritConfig parent d)),
             edges :=
               g.edges ++ (List.range l.length).map
                 (fun i => ((0 : Nat), g.nodes.length + i)) } := by
  induction l generalizing g with
  | nil => simp [processDepsList]
  | cons d rest ih =>
    have hd : ¬(d.repoconfig = none ∧ parent = none) :=
      h d (List.mem_cons_self _ _)
    simp only [processDepsList, addDep, if_neg hd]
    rw [ih _ (fun x hx => h x (List.mem_cons_of_mem _ hx))]
    congr 1
    refine congrArg₂ DepGraph.mk ?_ ?_
    · simp
    · simp only [List.length_append, List.length_cons, List.length_nil,
        List.range_succ_eq_map, List.map_cons, List.map_map,
        List.length_map]
      simp [List.append_assoc, Function.comp]
      intro a _
      omega

/-- A dependency loop whose project-side repoconfig is nil and whose list
contains a dependency lacking its own repoconfig panics. -/
theorem processDepsList_panic (l : List ComponentRef) (g : DepGraph)
    (h : ∃ d ∈ l, d.repoconfig = none) :
    processDepsList none l g = none := by
  induction l generalizing g with
  | nil =>
    rcases h with ⟨d, hd, _⟩
    cases hd
  | cons d rest ih =>
    by_cases hd : d.repoconfig = none
    · simp [processDepsList, addDep, hd]
    · have hne : ¬(d.repoconfig = none ∧ (none : Option RepoConfig) = none) :=
        fun hc => hd hc.1
      have haddeq : addDep none g d =
          some { nodes := g.nodes ++ [NodeVal.dep (inheritConfig none d)],
                 edges := g.edges ++ [(0, g.nodes.length)] } := by
        unfold addDep
        rw [if_neg hne]
      have hx2 : ∃ x ∈ rest, x.repoconfig = none := by
        rcases h with ⟨x, hx, hxc⟩
        rcases List.mem_cons.mp hx with rfl | hx3
        · exact absurd hxc hd
        · exact ⟨x, hx3, hxc⟩
      show (match addDep none g d with
            | none => none
            | some g2 => processDepsList none rest g2) = none
      rw [haddeq]
      exact ih _ hx2

/-- A project declaring exactly one dependency — an install one (its
build and runtime loops never run, so no panic is possible here). -/
def projInstallOnly : Project :=
  { ref := { repoconfig := none, name := "top", version := "", repo := "" },
    deps := { build := [], runtime := [],
              intall := [{ repoconfig := none, name := "d", version := "",
                           repo := "r" }] } }

/-- C7, counterexample: `ProcessDeps` never visits the install list, so a
project with one declared install dependency yields (without crashing —
the build/runtime loops are empty) a graph holding ONLY the project node
and no edge — no node exists for the install dependency, contradicting
the claim that every declared build, runtime and install dependency gets
a node. -/
theorem processDeps_install_missing_cex :
    projInstallOnly.deps.intall ≠ [] ∧
    processDeps projInstallOnly =
      some { nodes := [NodeVal.proj projInstallOnly], edges := [] } := by
  constructor
  · decide
  · rfl

/-- C7 (amended): when no inserted dependency triggers the nil-repoconfig
panic (i.e. every build/runtime dependency either has its own repoconfig
or the project has one), `ProcessDeps` builds the graph whose nodes are
the project (index 0) followed by one node per declared BUILD and
RUNTIME dependency (install dependencies are never inserted), each
inserted node carrying the parent's repoconfig when it lacked its own,
with the edge list running from the project node to each inserted node;
and when the project lacks a repoconfig while some build or runtime
dependency also lacks one, `ProcessDeps` panics (nil dereference in the
debug-log argument) and builds no graph. -/
theorem processDeps_graph (p : Project) :
    ((∀ d ∈ p.deps.build ++ p.deps.runtime,
        ¬(d.repoconfig = none ∧ p.ref.repoconfig = none)) →
      ∃ g, processDeps p = some g ∧
        g.nodes =
          NodeVal.proj p ::
            (p.deps.build ++ p.deps.runtime).map
              (fun d => NodeVal.dep (inheritConfig p.ref.repoconfig d)) ∧
        g.edges =
          (List.range (p.deps.build.length + p.deps.runtime.length)).map
            (fun i => ((0 : Nat), i + 1)) ∧
        (∀ d ∈ p.deps.build ++ p.deps.runtime, d.repoconfig = none →
          NodeVal.dep { d with repoconfig := p.ref.repoconfig } ∈ g.nodes) ∧
        (∀ d ∈ p.deps.build ++ p.deps.runtime, d.repoconfig ≠ none →
          NodeVal.dep d ∈ g.nodes)) ∧
    (p.ref.repoconfig = none →
      (∃ d ∈ p.deps.build ++ p.deps.runtime, d.repoconfig = none) →
      processDeps p = none) := by
  constructor
  · intro hsafe
    have hb := processDepsList_ok p.ref.repoconfig p.deps.build
      { nodes := [NodeVal.proj p], edges := [] }
      (fun d hd => hsafe d (List.mem_append_left _ hd))
    cases hres : processDepsList p.ref.repoconfig p.deps.build
        { nodes := [NodeVal.proj p], edges := [] } with
    | none =>
      rw [hres] at hb
      cases hb
    | some g1 =>
      rw [hres] at hb
      injection hb with hb1
      have hpd : processDeps p =
          processDepsList p.ref.repoconfig p.deps.runtime g1 := by
        unfold processDeps
        rw [hres]
      rw [hb1] at hpd
      rw [processDepsList_ok p.ref.repoconfig p.deps.runtime _
        (fun d hd => hsafe d (List.mem_append_right _ hd))] at hpd
      refine ⟨_, hpd, ?_, ?_, ?_, ?_⟩
      · simp
      · simp only [List.nil_append, List.length_cons, List.length_append,
          List.length_map, List.range_add, List.map_append, List.map_map,
          List.singleton_append, List.length_nil]
        congr 1
        · apply List.map_congr_left
          intro i _
          simp [Nat.add_comm]
        · apply List.map_congr_left
          intro i _
          simp [Function.comp]
          omega
      · intro d hd hnone
        have heq : inheritConfig p.ref.repoconfig d =
            { d with repoconfig := p.ref.repoconfig } := by
          simp [inheritConfig, hnone]
        rw [← heq]
        show NodeVal.dep (inheritConfig p.ref.repoconfig d) ∈
          ([NodeVal.proj p] ++ p.deps.build.map
              (fun d => NodeVal.dep (inheritConfig p.ref.repoconfig d))) ++
            p.deps.runtime.map
              (fun d => NodeVal.dep (inheritConfig p.ref.repoconfig d))
        rcases List.mem_append.mp hd with hdb | hdr
        · exact List.mem_append_left _ (List.mem_append_right _
            (List.mem_map_of_mem _ hdb))
        · exact List.mem_append_right _ (List.mem_map_of_mem _ hdr)
      · intro d hd hsome
        have heq : inheritConfig p.ref.repoconfig d = d := by
          simp [inheritConfig, hsome]
        rw [← heq]
        show NodeVal.dep (inheritConfig p.ref.repoconfig d) ∈
          ([NodeVal.proj p] ++ p.deps.build.map
              (fun d => NodeVal.dep (inheritConfig p.ref.repoconfig d))) ++
            p.deps.runtime.map
              (fun d => NodeVal.dep (inheritConfig p.ref.repoconfig d))
        rcases List.mem_append.mp hd with hdb | hdr
        · exact List.mem_append_left _ (List.mem_append_right _
            (List.mem_map_of_mem _ hdb))
        · exact List.mem_append_right _ (List.mem_map_of_mem _ hdr)
  · intro hnil hex
    unfold processDeps
    rw [hnil]
    by_cases hb : ∃ d ∈ p.deps.build, d.repoconfig = none
    · rw [processDepsList_panic _ _ hb]
    · have hball : ∀ d ∈ p.deps.build,
          ¬(d.repoconfig = none ∧ (none : Option RepoConfig) = none) := by
        intro d hd hc
        exact hb ⟨d, hd, hc.1⟩
      rw [processDepsList_ok none p.deps.build _ hball]
      have hrex : ∃ d ∈ p.deps.runtime, d.repoconfig = none := by
        rcases hex with ⟨d, hd, hdc⟩
        rcases List.mem_append.mp hd with hdb | hdr
        · exact absurd ⟨d, hdb, hdc⟩ hb
        · exact ⟨d, hdr, hdc⟩
      exact processDepsList_panic _ _ hrex

/-! ## Exec-mode result reporting (`internal/monhang/exec.go`, `runExec`)

After all `ExecuteCommand` calls have finished, `runExec` walks the repo
list, prints each repo's result (looked up by name in the executor's
results map; a missing entry is skipped), counts successes and failures
by whether `result.Error` is nil, and exits with code 1 exactly when the
failure count is positive (otherwise it returns and the process exits 0).
The results map is modelled as a function from names to optional
records. -/

/-- Go struct `RepoResult` (Name, Path, Command, Output, Error, ExitCode,
Running; the start/end timestamps are not consulted by the summary logic
and are omitted). -/
structure RepoResult where
  name : String
  path : String
  command : String
  output : String
  error : Option String
  exitCode : Int
  running : Bool
deriving DecidableEq, Repr

/-- The executor's results map (`executor.GetResults()`). -/
def ResultsMap : Type := String → Option RepoResult

/-- The sequence of results printed by `runExec`'s reporting loop (one
per repo, in repo order, skipping names missing from the map). -/
def execDisplayed : List ComponentRef → ResultsMap → List RepoResult
  | [], _ => []
  | repo :: rest, res =>
    match res repo.name with
    | none => execDisplayed rest res
    | some r => r :: execDisplayed rest res

/-- `failCount` accumulated by the same loop: displayed results whose
error is non-nil. -/
def execFailCount : List ComponentRef → ResultsMap → Nat
  | [], _ => 0
  | repo :: rest, res =>
    (match res repo.name with
     | none => 0
     | some r => if r.error = none then 0 else 1) + execFailCount rest res

/-- The process exit code of `runExec`: `os.Exit(1)` when `failCount > 0`,
otherwise a normal return (exit 0). -/
def runExecExitCode (repos : List ComponentRef) (res : ResultsMap) : Nat :=
  if execFailCount repos res > 0 then 1 else 0

/-! The workspace-sync path (`handleWorkspaceSync` in the `commands`
package) also reports failures: `printNonInteractiveSummary` counts
cloned/updated/failed over the Result Store snapshot.  Unlike exec mode,
no exit path consults those counts. -/

/-- `printNonInteractiveSummary`'s counting loop: skip in-progress
records, then count by action (cloned, updated, failed). -/
def syncSummaryCounts (rs : List SyncResult) : Nat × Nat × Nat :=
  rs.foldl
    (fun acc r =>
      if r.inProgress then acc
      else if r.action = SyncActionCloned then (acc.1 + 1, acc.2.1, acc.2.2)
      else if r.action = SyncActionUpdated then (acc.1, acc.2.1 + 1, acc.2.2)
      else if r.action = SyncActionFailed then (acc.1, acc.2.1, acc.2.2 + 1)
      else acc)
    (0, 0, 0)

/-- `runInteractiveSync` returns nil on every path: the non-TTY fallback,
the log-redirect-failure fallback and the UI-failure fallback all run the
non-interactive sync and return nil, and the success path returns nil. -/
def runInteractiveSyncErr : Option String := none

/-- The process exit code of a workspace-sync run: in
`handleWorkspaceSync`, `os.Exit(1)` fires only when `runInteractiveSync`
returned an error — which never happens — so the function returns
normally and the process exits 0; the sync results and their failure
count are never consulted for the exit code. -/
def workspaceSyncExitCode (_ : List SyncResult) : Nat :=
  match runInteractiveSyncErr with
  | some _ => 1
  | none => 0

/-- A sync-run outcome with one cloned and one Failed component. -/
def exFailedRs : List SyncResult :=
  [{ error := none, name := "a", action := SyncActionCloned, version := "v1",
     inProgress := false },
   { error := some "clone failed: exit status 128", name := "b",
     action := SyncActionFailed, version := "", inProgress := false }]

/-- C9, counterexample: a workspace-sync run whose Result Store holds a
Failed component still terminates with exit code 0 — no exit path of
`handleWorkspaceSync` consults the failure count — so the claimed
equivalence "exit code non-zero iff at least one component failed" is
false for this run. -/
theorem workspace_sync_zero_exit_cex :
    (syncSummaryCounts exFailedRs).2.2 = 1 ∧
    workspaceSyncExitCode exFailedRs = 0 ∧
    ¬(workspaceSyncExitCode exFailedRs ≠ 0 ↔
        0 < (syncSummaryCounts exFailedRs).2.2) := by
  refine ⟨rfl, rfl, ?_⟩
  decide

/-- The failure count is positive exactly when some repo's looked-up
result carries an error. -/
theorem execFailCount_pos (repos : List ComponentRef) (res : ResultsMap) :
    0 < execFailCount repos res ↔
      ∃ repo ∈ repos, ∃ r, res repo.name = some r ∧ r.error ≠ none := by
  induction repos with
  | nil => simp [execFailCount]
  | cons repo rest ih =>
    have hhead :
        (0 < (match res repo.name with
              | none => 0
              | some r => if r.error = none then (0 : Nat) else 1)) ↔
          ∃ r, res repo.name = some r ∧ r.error ≠ none := by
      rcases hres : res repo.name with _ | r
      · simp [hres]
      · rcases herr : r.error with _ | e
        · simp [hres, herr]
        · simp [hres, herr]
    simp only [execFailCount]
    rw [add_pos_iff, hhead, ih]
    constructor
    · rintro (⟨r, hr, he⟩ | ⟨x, hx, hs⟩)
      · exact ⟨repo, List.mem_cons_self _ _, r, hr, he⟩
      · exact ⟨x, List.mem_cons_of_mem _ hx, hs⟩
    · rintro ⟨x, hx, r, hr, he⟩
      rcases List.mem_cons.mp hx with rfl | hx2
      · exact Or.inl ⟨r, hr, he⟩
      · exact Or.inr ⟨x, hx2, r, hr, he⟩

/-- C9 (amended): an EXEC-mode run with every repo's command executed
(its name is present in the results map — which `ExecuteCommand`
guarantees by inserting the record before running) displays one result
per component, shows each component's stored record, and exits non-zero
exactly when at least one component's command failed; a WORKSPACE-SYNC
run, however, always terminates with exit code 0 whatever the Result
Store holds — its failure count only affects the printed summary.  Both
reporting loops are total functions, so a run with failures still
completes. -/
theorem run_failure_reporting_and_exit (repos : List ComponentRef)
    (res : ResultsMap)
    (h : ∀ repo ∈ repos, (res repo.name).isSome = true) :
    (execDisplayed repos res).length = repos.length ∧
    (∀ repo ∈ repos, ∀ r, res repo.name = some r →
      r ∈ execDisplayed repos res) ∧
    (runExecExitCode repos res ≠ 0 ↔
      ∃ repo ∈ repos, ∃ r, res repo.name = some r ∧ r.error ≠ none) ∧
    (∀ rs : List SyncResult, workspaceSyncExitCode rs = 0) := by
  refine ⟨?_, ?_, ?_, fun _ => rfl⟩
  · induction repos with
    | nil => rfl
    | cons repo rest ih =>
      have hr := h repo (List.mem_cons_self _ _)
      cases hres : res repo.name with
      | none =>
        rw [hres] at hr
        cases hr
      | some r =>
        simp only [execDisplayed, hres, List.length_cons]
        rw [ih (fun x hx => h x (List.mem_cons_of_mem _ hx))]
  · induction repos with
    | nil =>
      intro repo hrepo
      cases hrepo
    | cons repo rest ih =>
      intro x hx r hr
      rcases List.mem_cons.mp hx with rfl | hx2
      · simp only [execDisplayed, hr]
        exact List.mem_cons_self _ _
      · have hmem := ih (fun y hy => h y (List.mem_cons_of_mem _ hy)) x hx2 r hr
        cases hres : res repo.name with
        | none => simpa [execDisplayed, hres] using hmem
        | some r2 =>
          simp only [execDisplayed, hres]
          exact List.mem_cons_of_mem _ hmem
  · unfold runExecExitCode
    by_cases hp : 0 < execFailCount repos res
    · simp only [gt_iff_lt, hp, if_true, ne_eq, one_ne_zero,
        not_false_eq_true, true_iff]
      exact (execFailCount_pos repos res).mp hp
    · simp only [gt_iff_lt, hp, if_false, ne_eq, not_true_eq_false,
        false_iff]
      intro hex
      exact absurd ((execFailCount_pos repos res).mpr hex) hp

/-- Two repos for the exec-report witness. -/
def exRepos : List ComponentRef :=
  [{ repoconfig := none, name := "a", version := "", repo := "" },
   { repoconfig := none, name := "b", version := "", repo := "" }]

/-- A results map in which repo `a` succeeded and repo `b` failed. -/
def exResMap : ResultsMap := fun n =>
  if n = "a" then
    some { name := "a", path := "a", command := "make", output := "",
           error := none, exitCode := 0, running := false }
  else if n = "b" then
    some { name := "b", path := "b", command := "make", output := "boom",
           error := some "exit status 2", exitCode := 2, running := false }
  else none

/-- Witness for `run_failure_reporting_and_exit`: both repos present in
the map, one of them failed. -/
theorem run_failure_reporting_and_exit_witness :
    (execDisplayed exRepos exResMap).length = exRepos.length ∧
    (∀ repo ∈ exRepos, ∀ r, exResMap repo.name = some r →
      r ∈ execDisplayed exRepos exResMap) ∧
    (runExecExitCode exRepos exResMap ≠ 0 ↔
      ∃ repo ∈ exRepos, ∃ r, exResMap repo.name = some r ∧
        r.error ≠ none) ∧
    (∀ rs : List SyncResult, workspaceSyncExitCode rs = 0) :=
  run_failure_reporting_and_exit exRepos exResMap (by decide)

/-! ## Topological sort (`Project.Sort`)

`(proj *Project) Sort` is a single assignment
`proj.sorted = proj.graph.TopologicalSort()` — it has no error return, no
cycle check and no failure path of its own.  The sort itself lives in the
third-party library github.com/twmb/algoimpl/go/graph, whose source is
not part of the provided tree.

Modelled from the spec: `TopologicalSort` is embedded as the standard
depth-first topological sort that library implements — visit the nodes in
index order, skipping already-visited ones, exploring successors
depth-first, and emit each node when it finishes (prepending, which
yields the reverse-postorder directly); the library's own documentation
states that for a CYCLIC graph "the sort order will change based on which
node the sort starts on", i.e. a cyclic graph is sorted like any other,
with no error.  The recursion is fueled; the fuel (the node count) is
provably sufficient, so the model is faithful on well-formed graphs. -/

/-- Successors of node `u`: targets of the edges leaving `u`, in edge
insertion order. -/
def graphSuccs (g : DepGraph) (u : Nat) : List Nat :=
  (g.edges.filter (fun e => e.1 = u)).map (fun e => e.2)

/-- DFS state: visited nodes (most recent first) and the output order
built by prepending each node as it finishes. -/
structure DfsState where
  visited : List Nat
  order : List Nat
deriving DecidableEq, Repr

/-- One DFS visit: skip visited nodes, otherwise mark, explore the
successors left to right, and prepend the node to the output. -/
def dfsNode (succ : Nat → List Nat) : Nat → Nat → DfsState → DfsState
  | 0, _, s => s
  | fuel + 1, u, s =>
    if u ∈ s.visited then s
    else
      let s1 : DfsState := { visited := u :: s.visited, order := s.order }
      let s2 := (succ u).foldl (fun st v => dfsNode succ fuel v st) s1
      { visited := s2.visited, order := u :: s2.order }

/-- `TopologicalSort`: DFS from every node in index order. -/
def topologicalSort (g : DepGraph) : List Nat :=
  let n := g.nodes.length
  ((List.range n).foldl
    (fun st u => dfsNode (graphSuccs g) n u st)
    { visited := [], order := [] }).order

/-- `(proj *Project) Sort`: the stored `proj.sorted` is just the sort of
the graph `ProcessDeps` built (when `ProcessDeps` panicked the program
never reaches `Sort`); nothing is checked or reported. -/
def sortProject (p : Project) : Option (List Nat) :=
  match processDeps p with
  | none => none
  | some g => some (topologicalSort g)

/-- One edge step of the graph relation. -/
def StepRel (succ : Nat → List Nat) (u v : Nat) : Prop :=
  v ∈ succ u

/-- A graph (given by its successor function) is acyclic when no node
reaches itself through at least one edge. -/
def Acyclic (succ : Nat → List Nat) : Prop :=
  ∀ u, ¬ Relation.TransGen (StepRel succ) u u

/-- The output soundness invariant: wherever a node `u` sits in the
order list, all its successors sit strictly behind it (towards the tail,
i.e. they finished earlier). -/
def goodOrder (succ : Nat → List Nat) (l : List Nat) : Prop :=
  ∀ l1 u l2, l = l1 ++ u :: l2 → ∀ v ∈ succ u, v ∈ l2

/-- Pre-state invariant of a DFS call sequence: `G` is the gray stack
(nodes currently being expanded). -/
structure DfsPre (succ : Nat → List Nat) (n fuel : Nat) (G : List Nat)
    (s : DfsState) : Prop where
  range : ∀ x ∈ s.visited, x < n
  nodupV : s.visited.Nodup
  nodupO : s.order.Nodup
  fuelOk : n ≤ fuel + s.visited.length
  vg : ∀ x, x ∈ s.visited ↔ x ∈ G ∨ x ∈ s.order
  grayOrd : ∀ x ∈ G, x ∉ s.order
  good : Acyclic succ → goodOrder succ s.order

/-- Post-state relation of a DFS call sequence over the worklist `vs`. -/
structure DfsPost (succ : Nat → List Nat) (n : Nat) (G : List Nat)
    (s s' : DfsState) (vs : List Nat) : Prop where
  visEq : ∃ newV, s'.visited = newV ++ s.visited ∧ ∀ x ∈ newV, x ∉ s.visited
  ordEq : ∃ newO, s'.order = newO ++ s.order
  range : ∀ x ∈ s'.visited, x < n
  nodupV : s'.visited.Nodup
  nodupO : s'.order.Nodup
  vg : ∀ x, x ∈ s'.visited ↔ x ∈ G ∨ x ∈ s'.order
  grayOrd : ∀ x ∈ G, x ∉ s'.order
  good : Acyclic succ → goodOrder succ s'.order
  processed : ∀ v ∈ vs, v ∈ s'.visited

/-- Pigeonhole: a duplicate-free list of naturals below `n` with length
at least `n` contains every natural below `n`. -/
theorem mem_of_nodup_length (l : List Nat) (n : Nat) (hnd : l.Nodup)
    (hlt : ∀ x ∈ l, x < n) (hlen : n ≤ l.length) :
    ∀ y, y < n → y ∈ l := by
  intro y hy
  have hsub : l.toFinset ⊆ Finset.range n := by
    intro x hx
    simp only [List.mem_toFinset] at hx
    exact Finset.mem_range.mpr (hlt x hx)
  have hcard : l.toFinset.card = l.length := List.toFinset_card_of_nodup hnd
  have heq : l.toFinset = Finset.range n :=
    Finset.eq_of_subset_of_card_le hsub
      (by rw [hcard, Finset.card_range]; exact hlen)
  have : y ∈ l.toFinset := by
    rw [heq]
    exact Finset.mem_range.mpr hy
  simpa using this

/-- Main DFS invariant: folding `dfsNode` over a worklist `vs` whose
nodes are all reachable from every gray node preserves the invariants and
visits every worklist node, and — on acyclic graphs — keeps the output
sound (`goodOrder`). -/
theorem dfsFold_spec (succ : Nat → List Nat) (n : Nat)
    (hwf : ∀ x y, y ∈ succ x → y < n) :
    ∀ fuel (vs G : List Nat) (s : DfsState),
      (∀ v ∈ vs, v < n) →
      DfsPre succ n fuel G s →
      (∀ gn ∈ G, ∀ v ∈ vs, Relation.ReflTransGen (StepRel succ) gn v) →
      DfsPost succ n G s
        (vs.foldl (fun st v => dfsNode succ fuel v st) s) vs := by
  intro fuel
  induction fuel with
  | zero =>
    intro vs G s hvs hpre hG
    have hfold : ∀ (l : List Nat) (st : DfsState),
        l.foldl (fun st v => dfsNode succ 0 v st) st = st := by
      intro l
      induction l with
      | nil => intro st; rfl
      | cons v rest ih => intro st; exact ih st
    rw [hfold]
    refine ⟨⟨[], rfl, by simp⟩, ⟨[], rfl⟩, hpre.range, hpre.nodupV,
      hpre.nodupO, hpre.vg, hpre.grayOrd, hpre.good, ?_⟩
    intro v hv
    exact mem_of_nodup_length s.visited n hpre.nodupV hpre.range
      (by have := hpre.fuelOk; omega) v (hvs v hv)
  | succ fuel ihFuel =>
    intro vs
    induction vs with
    | nil =>
      intro G s hvs hpre hG
      exact ⟨⟨[], rfl, by simp⟩, ⟨[], rfl⟩, hpre.range, hpre.nodupV,
        hpre.nodupO, hpre.vg, hpre.grayOrd, hpre.good, by simp⟩
    | cons v vs ihVs =>
      intro G s hvs hpre hG
      rw [List.foldl_cons]
      by_cases hvmem : v ∈ s.visited
      · have hstep : dfsNode succ (fuel + 1) v s = s := by
          unfold dfsNode
          rw [if_pos hvmem]
        rw [hstep]
        have hpost := ihVs G s (fun x hx => hvs x (List.mem_cons_of_mem _ hx))
          hpre (fun gn hgn x hx => hG gn hgn x (List.mem_cons_of_mem _ hx))
        refine ⟨hpost.visEq, hpost.ordEq, hpost.range, hpost.nodupV,
          hpost.nodupO, hpost.vg, hpost.grayOrd, hpost.good, ?_⟩
        intro w hw
        rcases List.mem_cons.mp hw with rfl | hw2
        · rcases hpost.visEq with ⟨nV, hnV, _⟩
          rw [hnV]
          exact List.mem_append_right _ hvmem
        · exact hpost.processed w hw2
      · have hvn : v < n := hvs v (List.mem_cons_self _ _)
        have hvnotord : v ∉ s.order := fun h => hvmem ((hpre.vg v).mpr (Or.inr h))
        have hvnotG : v ∉ G := fun h => hvmem ((hpre.vg v).mpr (Or.inl h))
        have hpre1 : DfsPre succ n fuel (v :: G)
            { visited := v :: s.visited, order := s.order } :=
          { range := by
              intro x hx
              rcases List.mem_cons.mp hx with rfl | hx2
              · exact hvn
              · exact hpre.range x hx2
            nodupV := List.nodup_cons.mpr ⟨hvmem, hpre.nodupV⟩
            nodupO := hpre.nodupO
            fuelOk := by
              have := hpre.fuelOk
              simp only [List.length_cons]
              omega
            vg := by
              intro x
              have h2 := hpre.vg x
              constructor
              · intro hx
                rcases List.mem_cons.mp hx with rfl | hx2
                · exact Or.inl (List.mem_cons_self _ _)
                · rcases h2.mp hx2 with hg | ho
                  · exact Or.inl (List.mem_cons_of_mem _ hg)
                  · exact Or.inr ho
              · intro hx
                rcases hx with hg | ho
                · rcases List.mem_cons.mp hg with rfl | hg2
                  · exact List.mem_cons_self _ _
                  · exact List.mem_cons_of_mem _ (h2.mpr (Or.inl hg2))
                · exact List.mem_cons_of_mem _ (h2.mpr (Or.inr ho))
            grayOrd := by
              intro x hx
              rcases List.mem_cons.mp hx with rfl | hx2
              · exact hvnotord
              · exact hpre.grayOrd x hx2
            good := hpre.good }
        have hGsucc : ∀ gn ∈ v :: G, ∀ w ∈ succ v,
            Relation.ReflTransGen (StepRel succ) gn w := by
          intro gn hgn w hw
          rcases List.mem_cons.mp hgn with rfl | hgn2
          · exact Relation.ReflTransGen.single hw
          · exact Relation.ReflTransGen.trans
              (hG gn hgn2 v (List.mem_cons_self _ _))
              (Relation.ReflTransGen.single hw)
        have hpost2 := ihFuel (succ v) (v :: G)
          { visited := v :: s.visited, order := s.order }
          (fun w hw => hwf v w hw) hpre1 hGsucc
        have hstep0 : dfsNode succ (fuel + 1) v s =
            (if v ∈ s.visited then s
             else
               { visited :=
                   ((succ v).foldl (fun st w => dfsNode succ fuel w st)
                     { visited := v :: s.visited, order := s.order }).visited,
                 order :=
                   v :: ((succ v).foldl (fun st w => dfsNode succ fuel w st)
                     { visited := v :: s.visited, order := s.order }).order }) := rfl
        have hstep : dfsNode succ (fuel + 1) v s =
            { visited := ((succ v).foldl (fun st w => dfsNode succ fuel w st)
                { visited := v :: s.visited, order := s.order }).visited,
              order := v :: ((succ v).foldl (fun st w => dfsNode succ fuel w st)
                { visited := v :: s.visited, order := s.order }).order } := by
          rw [hstep0, if_neg hvmem]
        rw [hstep]
        rcases hpost2.visEq with ⟨nV, hnV, hnVfresh⟩
        rcases hpost2.ordEq with ⟨nO, hnO⟩
        have hvins2 : v ∈ ((succ v).foldl (fun st w => dfsNode succ fuel w st)
            { visited := v :: s.visited, order := s.order }).visited := by
          rw [hnV]
          exact List.mem_append_right _ (List.mem_cons_self _ _)
        have hvnotOrd2 : v ∉ ((succ v).foldl (fun st w => dfsNode succ fuel w st)
            { visited := v :: s.visited, order := s.order }).order :=
          hpost2.grayOrd v (List.mem_cons_self _ _)
        have hpre3 : DfsPre succ n (fuel + 1) G
            { visited := ((succ v).foldl (fun st w => dfsNode succ fuel w st)
                { visited := v :: s.visited, order := s.order }).visited,
              order := v :: ((succ v).foldl (fun st w => dfsNode succ fuel w st)
                { visited := v :: s.visited, order := s.order }).order } :=
          { range := hpost2.range
            nodupV := hpost2.nodupV
            nodupO := List.nodup_cons.mpr ⟨hvnotOrd2, hpost2.nodupO⟩
            fuelOk := by
              have h1 := hpre.fuelOk
              have h2 : (v :: s.visited).length ≤
                  (nV ++ v :: s.visited).length := by
                simp
              simp only [hnV]
              simp only [List.length_append, List.length_cons] at *
              omega
            vg := by
              intro x
              have h2 := hpost2.vg x
              constructor
              · intro hx
                rcases h2.mp hx with hg | ho
                · rcases List.mem_cons.mp hg with rfl | hg2
                  · exact Or.inr (List.mem_cons_self _ _)
                  · exact Or.inl hg2
                · exact Or.inr (List.mem_cons_of_mem _ ho)
              · intro hx
                rcases hx with hg | ho
                · exact h2.mpr (Or.inl (List.mem_cons_of_mem _ hg))
                · rcases List.mem_cons.mp ho with rfl | ho2
                  · exact h2.mpr (Or.inl (List.mem_cons_self _ _))
                  · exact h2.mpr (Or.inr ho2)
            grayOrd := by
              intro x hx hmem
              rcases List.mem_cons.mp hmem with rfl | h2
              · exact hvnotG hx
              · exact hpost2.grayOrd x (List.mem_cons_of_mem _ hx) h2
            good := by
              intro hacy l1 u l2 hsplit w hw
              cases l1 with
              | nil =>
                simp only [List.nil_append, List.cons.injEq] at hsplit
                obtain ⟨heq, hl2⟩ := hsplit
                rw [← hl2]
                rw [← heq] at hw
                have hwvis := hpost2.processed w hw
                rcases (hpost2.vg w).mp hwvis with hg | ho
                · rcases List.mem_cons.mp hg with heq2 | hg2
                  · rw [heq2] at hw
                    exact absurd (Relation.TransGen.single hw) (hacy v)
                  · have hreach := hG w hg2 v (List.mem_cons_self _ _)
                    exact absurd (Relation.TransGen.tail' hreach hw)
                      (hacy w)
                · exact ho
              | cons a l1' =>
                simp only [List.cons_append, List.cons.injEq] at hsplit
                rcases hsplit with ⟨rfl, hsplit2⟩
                exact hpost2.good hacy l1' u l2 hsplit2 w hw }
        have hpostRest := ihVs G _
          (fun x hx => hvs x (List.mem_cons_of_mem _ hx)) hpre3
          (fun gn hgn x hx => hG gn hgn x (List.mem_cons_of_mem _ hx))
        refine ⟨?_, ?_, hpostRest.range, hpostRest.nodupV, hpostRest.nodupO,
          hpostRest.vg, hpostRest.grayOrd, hpostRest.good, ?_⟩
        · rcases hpostRest.visEq with ⟨nV2, hnV2, hfresh2⟩
          refine ⟨nV2 ++ nV ++ [v], ?_, ?_⟩
          · rw [hnV2]
            simp only [hnV]
            simp
          · intro x hx
            simp only [List.mem_append, List.mem_singleton] at hx
            rcases hx with (hx2 | hx3) | rfl
            · intro hxs
              apply hfresh2 x hx2
              simp only [hnV]
              exact List.mem_append_right _ (List.mem_cons_of_mem _ hxs)
            · intro hxs
              exact hnVfresh x hx3 (List.mem_cons_of_mem _ hxs)
            · exact hvmem
        · rcases hpostRest.ordEq with ⟨nO2, hnO2⟩
          refine ⟨nO2 ++ v :: nO, ?_⟩
          rw [hnO2]
          simp [hnO]
        · intro w hw
          rcases List.mem_cons.mp hw with rfl | hw2
          · rcases hpostRest.visEq with ⟨nV2, hnV2, _⟩
            rw [hnV2]
            exact List.mem_append_right _ hvins2
          · exact hpostRest.processed w hw2

/-- C8 (amended): for every well-formed graph the sort is total — it
returns a duplicate-free ordering containing exactly the graph's nodes,
with no error (cyclic graphs included; `Sort` itself has no failure
path); and for every ACYCLIC graph the output places every edge's SOURCE
before its target — under the owner→dependency orientation `ProcessDeps`
uses, each dependency therefore appears after the node that depends on
it, not before. -/
theorem topologicalSort_sound_and_total (g : DepGraph)
    (hwf : ∀ e ∈ g.edges, e.2 < g.nodes.length) :
    ((topologicalSort g).Nodup ∧
      (∀ x, x ∈ topologicalSort g ↔ x < g.nodes.length)) ∧
    (Acyclic (graphSuccs g) →
      ∀ l1 u l2, topologicalSort g = l1 ++ u :: l2 →
        ∀ v ∈ graphSuccs g u, v ∈ l2) := by
  have hwfs : ∀ x y, y ∈ graphSuccs g x → y < g.nodes.length := by
    intro x y hy
    unfold graphSuccs at hy
    simp only [List.mem_map, List.mem_filter] at hy
    obtain ⟨e, ⟨he, _⟩, rfl⟩ := hy
    exact hwf e he
  have hpre : DfsPre (graphSuccs g) g.nodes.length g.nodes.length []
      { visited := [], order := [] } :=
    { range := by simp
      nodupV := List.nodup_nil
      nodupO := List.nodup_nil
      fuelOk := by simp
      vg := by simp
      grayOrd := by simp
      good := by
        intro _ l1 u l2 h
        exact absurd h.symm (by simp) }
  have hpost := dfsFold_spec (graphSuccs g) g.nodes.length hwfs
    g.nodes.length (List.range g.nodes.length) []
    { visited := [], order := [] }
    (fun v hv => List.mem_range.mp hv) hpre (by simp)
  have horder : topologicalSort g =
      ((List.range g.nodes.length).foldl
        (fun st u => dfsNode (graphSuccs g) g.nodes.length u st)
        { visited := [], order := [] }).order := rfl
  refine ⟨⟨?_, ?_⟩, ?_⟩
  · rw [horder]
    exact hpost.nodupO
  · intro x
    rw [horder]
    constructor
    · intro hx
      have hvis := (hpost.vg x).mpr (Or.inr hx)
      exact hpost.range x hvis
    · intro hx
      have hvis := hpost.processed x (List.mem_range.mpr hx)
      rcases (hpost.vg x).mp hvis with hg | ho
      · cases hg
      · exact ho
  · intro hacy l1 u l2 hsplit v hv
    rw [horder] at hsplit
    exact hpost.good hacy l1 u l2 hsplit v hv

/-- A two-node graph whose edges form a cycle. -/
def gCycle : DepGraph :=
  { nodes := [NodeVal.dep { repoconfig := none, name := "a", version := "",
                            repo := "" },
              NodeVal.dep { repoconfig := none, name := "b", version := "",
                            repo := "" }],
    edges := [(0, 1), (1, 0)] }

/-- A project with exactly one build dependency, carrying a project-level
repoconfig so that `ProcessDeps` runs without panicking (the dependency
inherits it). -/
def projOneBuild : Project :=
  { ref := { repoconfig := some { type := "git", base := "https://base/" },
             name := "top", version := "", repo := "" },
    deps := { build := [{ repoconfig := none, name := "dep1", version := "",
                          repo := "r" }],
              runtime := [], intall := [] } }

/-- The graph `ProcessDeps` builds for `projOneBuild`: node 0 the
project, node 1 the (repoconfig-inherited) dependency, one edge from the
project to the dependency. -/
def gStar : DepGraph :=
  { nodes := [NodeVal.proj projOneBuild,
              NodeVal.dep { repoconfig := some { type := "git",
                                                 base := "https://base/" },
                            name := "dep1", version := "", repo := "r" }],
    edges := [(0, 1)] }

/-- C8, counterexample: the cyclic two-node graph is NOT rejected — the
sort silently returns the full ordering `[0, 1]` and `Sort` has no error
path to report anything; and on the (panic-free, acyclic) graph
`ProcessDeps` builds for `projOneBuild` (edge `(0, 1)`: node 0, the
project, depends on node 1), the stored sorted output is `[0, 1]` — the
dependency is placed AFTER the node that depends on it.  Both halves of
the claim are therefore false at these inputs. -/
theorem sort_cycle_and_direction_cex :
    (¬ Acyclic (graphSuccs gCycle)) ∧
    topologicalSort gCycle = [0, 1] ∧
    processDeps projOneBuild = some gStar ∧
    gStar.edges = [(0, 1)] ∧
    topologicalSort gStar = [0, 1] ∧
    sortProject projOneBuild = some [0, 1] := by
  refine ⟨?_, rfl, rfl, rfl, rfl, rfl⟩
  intro h
  have h01 : StepRel (graphSuccs gCycle) 0 1 :=
    (by decide : (1 : Nat) ∈ graphSuccs gCycle 0)
  have h10 : StepRel (graphSuccs gCycle) 1 0 :=
    (by decide : (0 : Nat) ∈ graphSuccs gCycle 1)
  exact h 0 (Relation.TransGen.head h01 (Relation.TransGen.single h10))

/-- Witness for `topologicalSort_sound_and_total` on the concrete graph
`ProcessDeps` builds from `projOneBuild`. -/
theorem topologicalSort_sound_and_total_witness :
    ((topologicalSort gStar).Nodup ∧
      (∀ x, x ∈ topologicalSort gStar ↔ x < gStar.nodes.length)) ∧
    (Acyclic (graphSuccs gStar) →
      ∀ l1 u l2, topologicalSort gStar = l1 ++ u :: l2 →
        ∀ v ∈ graphSuccs gStar u, v ∈ l2) :=
  topologicalSort_sound_and_total gStar (by decide)

/-- Witness for `sync_clone_xor_update` at concrete oracles (a filesystem
where `comp-a/.git` is a directory, so the update path is taken). -/
theorem sync_clone_xor_update_witness :
    (((syncComponentBackground statEx gitOkEx compEx []).2).any isFetchCmd
        = true ↔ componentExists statEx compEx.name = true) ∧
    (((syncComponentBackground statEx gitOkEx compEx []).2).any isCloneCmd
        = true ↔ componentExists statEx compEx.name = false) ∧
    ¬(((syncComponentBackground statEx gitOkEx compEx []).2).any isFetchCmd
        = true ∧
      ((syncComponentBackground statEx gitOkEx compEx []).2).any isCloneCmd
        = true) ∧
    (((syncComponentBackground statEx gitOkEx compEx []).2).any isFetchCmd
        = true ∨
      ((syncComponentBackground statEx gitOkEx compEx []).2).any isCloneCmd
        = true) ∧
    componentExists statEx compEx.name =
      (match statEx (goJoin (goJoin "." compEx.name) ".git") with
       | none => false
       | some info => info.isDir) :=
  sync_clone_xor_update statEx gitOkEx compEx []

/-- A project with one build dependency lacking a repoconfig (so it
inherits the project's) and one runtime dependency carrying its own. -/
def projC7 : Project :=
  { ref := { repoconfig := some { type := "git", base := "https://base/" },
             name := "top", version := "", repo := "" },
    deps := { build := [{ repoconfig := none, name := "b1", version := "",
                          repo := "r1" }],
              runtime := [{ repoconfig := some { type := "git", base := "x" },
                            name := "rn1", version := "", repo := "r2" }],
              intall := [] } }

/-- A project whose own repoconfig is nil and whose build dependency also
lacks one: the crash input of `ProcessDeps`. -/
def projPanic : Project :=
  { ref := { repoconfig := none, name := "top", version := "", repo := "" },
    deps := { build := [{ repoconfig := none, name := "b1", version := "",
                          repo := "r1" }],
              runtime := [], intall := [] } }

/-- Witness for `processDeps_graph`: the success arm instantiated at
`projC7` (which carries a project-level repoconfig, so no panic) and the
panic arm instantiated at `projPanic`. -/
theorem processDeps_graph_witness :
    (∃ g, processDeps projC7 = some g ∧
      g.nodes =
        NodeVal.proj projC7 ::
          (projC7.deps.build ++ projC7.deps.runtime).map
            (fun d => NodeVal.dep (inheritConfig projC7.ref.repoconfig d)) ∧
      g.edges =
        (List.range (projC7.deps.build.length +
          projC7.deps.runtime.length)).map (fun i => ((0 : Nat), i + 1)) ∧
      (∀ d ∈ projC7.deps.build ++ projC7.deps.runtime, d.repoconfig = none →
        NodeVal.dep { d with repoconfig := projC7.ref.repoconfig } ∈
          g.nodes) ∧
      (∀ d ∈ projC7.deps.build ++ projC7.deps.runtime, d.repoconfig ≠ none →
        NodeVal.dep d ∈ g.nodes)) ∧
    processDeps projPanic = none :=
  ⟨(processDeps_graph projC7).1 (by decide),
   (processDeps_graph projPanic).2 rfl (by decide)⟩

end Monhang
